import Mathlib

/-!
Verification of the streaming pattern-matching utilities in
`src/esp_at_stream_util.ts` (namespace `emakefun`).

The TypeScript functions are shallowly embedded as Lean functions:

* Bytes are `Nat` (code points); a MakeCode `Buffer` is a `List Nat`, and an
  out-of-range read returns `0`, modelled by `nth`.
* The serial stream and the clock are modelled by a finite list of loop
  iterations: each iteration delivers the chunk returned by
  `serial.readBuffer` together with the value of `input.runningTime()`
  observed at the bottom-of-loop deadline check of that iteration.
* A run returns `none` when the iteration list is exhausted while the
  do-while loop would still continue (the behaviour is then not determined
  by the supplied trace), and `some r` when the function returns `r`.
* A thrown invalid-argument fault is `Except.error ()`.
-/

namespace emakefun

/-- Byte read `buf[i]` from a MakeCode buffer: `0` when out of range. -/
def nth : List Nat → Nat → Nat
  | [], _ => 0
  | a :: _, 0 => a
  | _ :: l, i + 1 => nth l i

/-- Pattern lookup `byte_targets[j]`. -/
def patAt (targets : List (List Nat)) (j : Nat) : List Nat :=
  targets.getD j []

/-- The inner `for (k = 0; k < bound; k++)` scan of the backtrack loop,
with `fuel` the number of iterations left (`bound - k`): returns the
final value of `k`. -/
def kScanAux (target : List Nat) (diff : Nat) : Nat → Nat → Nat
  | 0, k => k
  | fuel + 1, k =>
    if nth target k ≠ nth target (k + diff) then k
    else kScanAux target diff fuel (k + 1)

/-- The inner `for` scan started at `k = 0`; its result equals `bound`
iff every compared pair of pattern bytes agreed. -/
def kScan (target : List Nat) (diff bound : Nat) : Nat :=
  kScanAux target diff bound 0

/-- The `while (offset > 0)` backtrack loop shared by `multiFindUtil` and
`singleFindUtil` (lines 37-57 and 91-111 of the source), recursing on the
current value of the mutable `offset`; `orig` is `original_offset`. -/
def recoverLoop (target : List Nat) (b : Nat) (orig : Nat) : Nat → Nat
  | 0 => 0
  | s + 1 =>
    if b ≠ nth target s then recoverLoop target b orig s
    else if s = 0 then 1
    else if kScan target (orig - s) s = s then s + 1
    else recoverLoop target b orig s

/-- One byte of `multiFindUtil` for one pattern (source lines 22-57):
`.inl ()` means `return j`, `.inr o` is the value stored in `offsets[j]`
afterwards.  On a mismatch with positive offset the backtrack loop updates
only the local `offset`, which is then discarded: the stored entry stays. -/
def multiPatternStep (target : List Nat) (offset : Nat) (b : Nat) : Sum Unit Nat :=
  if b = nth target offset then
    if offset + 1 = target.length then .inl ()
    else .inr (offset + 1)
  else if offset = 0 then .inr 0
  else
    let _local := recoverLoop target b offset offset
    .inr offset

/-- One byte of `singleFindUtil` (source lines 82-111): here `offset` is a
function-level variable, so the backtrack result is kept. -/
def singlePatternStep (target : List Nat) (offset : Nat) (b : Nat) : Sum Unit Nat :=
  if b = nth target offset then
    if offset + 1 = target.length then .inl ()
    else .inr (offset + 1)
  else .inr (recoverLoop target b offset offset)

/-- The `for (j = 0; ...)` loop over patterns for one byte of
`multiFindUtil` (source lines 21-58), at pattern index `j` with `fuel`
the number of patterns still to visit (`targets.length - j`). -/
def stepPatternsAux (targets : List (List Nat)) (b : Nat) :
    Nat → Nat → List Nat → Sum Nat (List Nat)
  | 0, _, offsets => .inr offsets
  | fuel + 1, j, offsets =>
    match multiPatternStep (patAt targets j) (nth offsets j) b with
    | .inl _ => .inl j
    | .inr o => stepPatternsAux targets b fuel (j + 1) (offsets.set j o)

/-- The pattern loop started at `j = 0`. -/
def stepPatterns (targets : List (List Nat)) (offsets : List Nat) (b : Nat) :
    Sum Nat (List Nat) :=
  stepPatternsAux targets b targets.length 0 offsets

/-- The `for (i = 0; i < data.length; i++)` loop of `multiFindUtil`:
process one chunk of bytes. -/
def processChunk (targets : List (List Nat)) (offsets : List Nat) :
    List Nat → Sum Nat (List Nat)
  | [] => .inr offsets
  | b :: rest =>
    match stepPatterns targets offsets b with
    | .inl j => .inl j
    | .inr offsets2 => processChunk targets offsets2 rest

/-- Clock-free chaining of `processChunk` over a list of chunks. -/
def runChunks (targets : List (List Nat)) (offsets : List Nat) :
    List (List Nat) → Sum Nat (List Nat)
  | [] => .inr offsets
  | c :: cs =>
    match processChunk targets offsets c with
    | .inl j => .inl j
    | .inr offsets2 => runChunks targets offsets2 cs

/-- The `do ... while (input.runningTime() < end_time)` loop of
`multiFindUtil`: `some (some j)` is `return j`, `some none` is `return -1`,
`none` means the supplied iteration trace ran out. -/
def multiRun (targets : List (List Nat)) (end_time : Nat) (offsets : List Nat) :
    List (List Nat × Nat) → Option (Option Nat)
  | [] => none
  | (chunk, t) :: rest =>
    match processChunk targets offsets chunk with
    | .inl j => some (some j)
    | .inr offsets2 =>
      if t < end_time then multiRun targets end_time offsets2 rest
      else some none

/-- `multiFindUtil` top level (source lines 8-63): argument validation,
then the polling loop from all-zero offsets. -/
def multiFindUtil (targets : List (List Nat)) (timeout_ms : Int)
    (start_time : Nat) (iters : List (List Nat × Nat)) :
    Except Unit (Option (Option Nat)) :=
  if targets.length = 0 ∨ timeout_ms < 0 then .error ()
  else .ok (multiRun targets (start_time + timeout_ms.toNat)
    (List.replicate targets.length 0) iters)

/-- The evolution of one pattern of `multiFindUtil` over a list of bytes
(projection of `processChunk` to a single pattern index). -/
def multiFeed (target : List Nat) (offset : Nat) : List Nat → Sum Unit Nat
  | [] => .inr offset
  | b :: rest =>
    match multiPatternStep target offset b with
    | .inl _ => .inl ()
    | .inr o => multiFeed target o rest

/-- The `for` loop of `singleFindUtil` over one chunk of bytes. -/
def singleProcess (target : List Nat) (offset : Nat) : List Nat → Sum Unit Nat
  | [] => .inr offset
  | b :: rest =>
    match singlePatternStep target offset b with
    | .inl _ => .inl ()
    | .inr o => singleProcess target o rest

/-- The do-while loop of `singleFindUtil`: `some true` is `return true`,
`some false` is `return false` after the deadline check fails. -/
def singleRun (target : List Nat) (end_time : Nat) (offset : Nat) :
    List (List Nat × Nat) → Option Bool
  | [] => none
  | (chunk, t) :: rest =>
    match singleProcess target offset chunk with
    | .inl _ => some true
    | .inr o =>
      if t < end_time then singleRun target end_time o rest
      else some false

/-- `singleFindUtil` top level (source lines 71-115).  The guard
`!target` of the source is true exactly for the empty string. -/
def singleFindUtil (target : List Nat) (timeout_ms : Int)
    (start_time : Nat) (iters : List (List Nat × Nat)) :
    Except Unit (Option Bool) :=
  if target.length = 0 ∨ timeout_ms < 0 then .error ()
  else .ok (singleRun target (start_time + timeout_ms.toNat) 0 iters)

/-- Value of a string of decimal digit bytes, as accumulated by
`parseInt` on the digit text built by `parseNumber`. -/
def digitsVal (ds : List Nat) : Nat :=
  ds.foldl (fun a d => a * 10 + (d - 48)) 0

/-- `parseInt(num_str)` for the strings `parseNumber` can return on:
an optional leading `-` (byte 45) followed by decimal digits. -/
def parseIntOf (num : List Nat) : Int :=
  match num with
  | 45 :: ds => -(digitsVal ds : Int)
  | ds => (digitsVal ds : Int)

/-- The do-while loop of `parseNumber` (source lines 151-166).  Each
iteration delivers `serial.readBuffer(1)` as `none` (no byte) or `some b`,
with the clock value of that iteration.  `num` is the accumulated
`num_str`.  A result `some (v, rest)` means the call returned `v`
(`none` standing for `NaN`) leaving `rest` unread; `none` means the
iteration trace ran out. -/
def parseNumberRun (end_time : Nat) (num : List Nat) :
    List (Option Nat × Nat) → Option (Option Int × List (Option Nat × Nat))
  | [] => none
  | (d, t) :: rest =>
    match d with
    | none =>
      if t < end_time then parseNumberRun end_time num rest
      else some (none, rest)
    | some b =>
      if (b = 45 ∧ num = []) ∨ (48 ≤ b ∧ b ≤ 57) then
        if t < end_time then parseNumberRun end_time (num ++ [b]) rest
        else some (none, rest)
      else
        if num ≠ [] ∧ num ≠ [45] then some (some (parseIntOf num), rest)
        else some (none, rest)

/-- `parseNumber` top level (source lines 143-168). -/
def parseNumber (timeout_ms : Int) (start_time : Nat)
    (iters : List (Option Nat × Nat)) :
    Except Unit (Option (Option Int × List (Option Nat × Nat))) :=
  if timeout_ms < 0 then .error ()
  else .ok (parseNumberRun (start_time + timeout_ms.toNat) [] iters)

/-- `borderOK target w l` says the first `l` bytes of `target` equal the
last `l` bytes of `w` (stated pointwise through `nth`). -/
def borderOK (target w : List Nat) (l : Nat) : Prop :=
  l ≤ target.length ∧ l ≤ w.length ∧
    ∀ k, k < l → nth target k = nth w (w.length - l + k)

instance (target w : List Nat) (l : Nat) : Decidable (borderOK target w l) :=
  inferInstanceAs (Decidable (l ≤ target.length ∧ l ≤ w.length ∧
    ∀ k, k < l → nth target k = nth w (w.length - l + k)))

/-- Length of the longest prefix of `target` that is a suffix of `w`
(the quantity the specification calls the match offset invariant). -/
def longestRun (target w : List Nat) : Nat :=
  Nat.findGreatest (borderOK target w) target.length

/-- The acceptance condition of the backtrack loop at candidate new offset
`o2` (so candidate index `p = o2 - 1`), with `orig` the offset at loop
entry: the byte at `o2 - 1` equals `b` and the first `o2 - 1` pattern
bytes re-align with the tail of the previously matched run. -/
def recoverCond (target : List Nat) (b orig o2 : Nat) : Prop :=
  nth target (o2 - 1) = b ∧
    ∀ k, k < o2 - 1 → nth target k = nth target (k + (orig - (o2 - 1)))

instance (target : List Nat) (b orig o2 : Nat) :
    Decidable (recoverCond target b orig o2) :=
  inferInstanceAs (Decidable (nth target (o2 - 1) = b ∧
    ∀ k, k < o2 - 1 → nth target k = nth target (k + (orig - (o2 - 1)))))

/-- Pattern `j` completes on the current byte `b`: the byte extends the
matched run of pattern `j` to its full length. -/
def completesAt (targets : List (List Nat)) (offsets : List Nat) (b : Nat)
    (j : Nat) : Prop :=
  b = nth (patAt targets j) (nth offsets j) ∧
    nth offsets j + 1 = (patAt targets j).length

instance (targets : List (List Nat)) (offsets : List Nat) (b : Nat) (j : Nat) :
    Decidable (completesAt targets offsets b j) :=
  inferInstanceAs (Decidable (b = nth (patAt targets j) (nth offsets j) ∧
    nth offsets j + 1 = (patAt targets j).length))

/-! ## Basic lemmas about `nth` and `List.set` -/

theorem nth_set_ne (l : List Nat) (i j v : Nat) (h : i ≠ j) :
    nth (l.set i v) j = nth l j := by
  induction l generalizing i j with
  | nil => simp [List.set]
  | cons a l ih =>
    cases i with
    | zero =>
      cases j with
      | zero => exact absurd rfl h
      | succ j => simp [List.set, nth]
    | succ i =>
      cases j with
      | zero => simp [List.set, nth]
      | succ j =>
        simp only [List.set, nth]
        exact ih i j (fun he => h (by rw [he]))

theorem nth_set_self (l : List Nat) (i v : Nat) (h : i < l.length) :
    nth (l.set i v) i = v := by
  induction l generalizing i with
  | nil => simp at h
  | cons a l ih =>
    cases i with
    | zero => simp [List.set, nth]
    | succ i =>
      simp only [List.set, nth]
      exact ih i (by simpa using h)

theorem nth_replicate (n i : Nat) : nth (List.replicate n 0) i = 0 := by
  induction n generalizing i with
  | zero => simp [List.replicate, nth]
  | succ n ih =>
    cases i with
    | zero => simp [List.replicate, nth]
    | succ i => simp only [List.replicate, nth]; exact ih i

theorem nth_append_left (l l2 : List Nat) (i : Nat) (h : i < l.length) :
    nth (l ++ l2) i = nth l i := by
  induction l generalizing i with
  | nil => simp at h
  | cons a l ih =>
    cases i with
    | zero => simp [nth]
    | succ i =>
      simp only [List.cons_append, nth]
      exact ih i (by simpa using h)

theorem nth_append_right (l l2 : List Nat) (i : Nat) :
    nth (l ++ l2) (l.length + i) = nth l2 i := by
  induction l with
  | nil => simp [nth]
  | cons a l ih =>
    simpa [List.cons_append, nth, Nat.succ_add] using ih

/-! ## The backtrack loop computes the greatest acceptable new offset -/

theorem kScanAux_eq_iff (target : List Nat) (diff : Nat) :
    ∀ fuel k, kScanAux target diff fuel k = k + fuel ↔
      ∀ j, k ≤ j → j < k + fuel → nth target j = nth target (j + diff) := by
  intro fuel
  induction fuel with
  | zero =>
    intro k
    constructor
    · intro _ j hj1 hj2
      omega
    · intro _
      simp [kScanAux]
  | succ fuel ih =>
    intro k
    simp only [kScanAux]
    by_cases hne : nth target k ≠ nth target (k + diff)
    · rw [if_pos hne]
      constructor
      · intro hk
        exfalso
        omega
      · intro hall
        exact absurd (hall k le_rfl (by omega)) hne
    · rw [if_neg hne]
      push_neg at hne
      have harith : k + (fuel + 1) = (k + 1) + fuel := by omega
      rw [harith, ih (k + 1)]
      constructor
      · intro hall j hj1 hj2
        rcases Nat.eq_or_lt_of_le hj1 with he | hlt
        · exact he ▸ hne
        · exact hall j hlt (by omega)
      · intro hall j hj1 hj2
        exact hall j (by omega) (by omega)

theorem kScan_eq_iff (target : List Nat) (diff bound : Nat) :
    kScan target diff bound = bound ↔
      ∀ j, j < bound → nth target j = nth target (j + diff) := by
  have h := kScanAux_eq_iff target diff bound 0
  simp only [Nat.zero_add] at h
  unfold kScan
  rw [h]
  constructor
  · intro hall j hj
    exact hall j (Nat.zero_le j) hj
  · intro hall j _ hj
    exact hall j hj

theorem recoverCond_succ (target : List Nat) (b orig s : Nat) :
    recoverCond target b orig (s + 1) ↔
      (nth target s = b ∧
        ∀ k, k < s → nth target k = nth target (k + (orig - s))) := by
  unfold recoverCond
  simp [Nat.succ_sub_one]

/-- The backtrack loop entered with offset `s` returns the greatest
`o2 ≤ s` for which the acceptance condition `recoverCond` holds, and `0`
when none does. -/
theorem recoverLoop_spec (target : List Nat) (b orig : Nat) (s : Nat) :
    (recoverLoop target b orig s = 0 ∨
      (0 < recoverLoop target b orig s ∧
        recoverCond target b orig (recoverLoop target b orig s))) ∧
    recoverLoop target b orig s ≤ s ∧
    ∀ o2, 0 < o2 → o2 ≤ s → recoverCond target b orig o2 →
      o2 ≤ recoverLoop target b orig s := by
  induction s with
  | zero =>
    refine ⟨Or.inl rfl, le_rfl, ?_⟩
    intro o2 h1 h2 _
    omega
  | succ s ih =>
    by_cases hb : b ≠ nth target s
    · have hr : recoverLoop target b orig (s + 1) = recoverLoop target b orig s := by
        simp only [recoverLoop]
        rw [if_pos hb]
      rw [hr]
      refine ⟨ih.1, le_trans ih.2.1 (Nat.le_succ s), ?_⟩
      intro o2 h1 h2 hc
      rcases Nat.lt_or_ge o2 (s + 1) with hlt | hge
      · exact ih.2.2 o2 h1 (by omega) hc
      · exfalso
        have he : o2 = s + 1 := by omega
        subst he
        rw [recoverCond_succ] at hc
        exact hb hc.1.symm
    · push_neg at hb
      by_cases h0 : s = 0
      · subst h0
        have hr : recoverLoop target b orig (0 + 1) = 1 := by
          simp only [recoverLoop]
          rw [if_neg (not_not_intro hb)]
          simp
        rw [hr]
        refine ⟨Or.inr ⟨Nat.one_pos, ?_⟩, le_rfl, ?_⟩
        · rw [recoverCond_succ]
          exact ⟨hb.symm, fun k hk => absurd hk (by omega)⟩
        · intro o2 h1 h2 _
          omega
      · by_cases hks : kScan target (orig - s) s = s
        · have hr : recoverLoop target b orig (s + 1) = s + 1 := by
            simp only [recoverLoop]
            rw [if_neg (not_not_intro hb), if_neg h0, if_pos hks]
          rw [hr]
          refine ⟨Or.inr ⟨Nat.succ_pos s, ?_⟩, le_rfl, ?_⟩
          · rw [recoverCond_succ]
            exact ⟨hb.symm, (kScan_eq_iff target (orig - s) s).mp hks⟩
          · intro o2 _ h2 _
            exact h2
        · have hr : recoverLoop target b orig (s + 1) = recoverLoop target b orig s := by
            simp only [recoverLoop]
            rw [if_neg (not_not_intro hb), if_neg h0, if_neg hks]
          rw [hr]
          refine ⟨ih.1, le_trans ih.2.1 (Nat.le_succ s), ?_⟩
          intro o2 h1 h2 hc
          rcases Nat.lt_or_ge o2 (s + 1) with hlt | hge
          · exact ih.2.2 o2 h1 (by omega) hc
          · exfalso
            have he : o2 = s + 1 := by omega
            subst he
            rw [recoverCond_succ] at hc
            exact hks ((kScan_eq_iff target (orig - s) s).mpr hc.2)

/-! ## The pattern loop returns the least completing index -/

theorem multiPatternStep_inl_iff (target : List Nat) (offset b : Nat) :
    multiPatternStep target offset b = .inl () ↔
      (b = nth target offset ∧ offset + 1 = target.length) := by
  unfold multiPatternStep
  by_cases hb : b = nth target offset
  · rw [if_pos hb]
    by_cases hlen : offset + 1 = target.length
    · rw [if_pos hlen]
      simp [hb, hlen]
    · rw [if_neg hlen]
      simp [hlen]
  · rw [if_neg hb]
    by_cases h0 : offset = 0
    · rw [if_pos h0]
      simp [hb]
    · rw [if_neg h0]
      simp [hb]

theorem stepPatternsAux_finds (targets : List (List Nat)) (b : Nat)
    (offsets : List Nat) (j : Nat)
    (hj : j < targets.length)
    (hcomp : completesAt targets offsets b j)
    (hno : ∀ j2, j2 < j → ¬completesAt targets offsets b j2) :
    ∀ fuel i offsets2, fuel = targets.length - i → i ≤ j →
      (∀ m, i ≤ m → nth offsets2 m = nth offsets m) →
      stepPatternsAux targets b fuel i offsets2 = .inl j := by
  intro fuel
  induction fuel with
  | zero =>
    intro i offsets2 hfuel hij _
    omega
  | succ fuel ih =>
    intro i offsets2 hfuel hij hsame
    rcases Nat.eq_or_lt_of_le hij with he | hlt
    · subst he
      have hstep : multiPatternStep (patAt targets i) (nth offsets2 i) b =
          .inl () := by
        rw [multiPatternStep_inl_iff, hsame i le_rfl]
        exact ⟨hcomp.1, hcomp.2⟩
      simp only [stepPatternsAux, hstep]
    · have hstep : multiPatternStep (patAt targets i) (nth offsets2 i) b ≠
          .inl () := by
        intro hc
        rw [multiPatternStep_inl_iff, hsame i le_rfl] at hc
        exact hno i hlt hc
      rcases hs : multiPatternStep (patAt targets i) (nth offsets2 i) b with u | o
      · cases u
        exact absurd hs hstep
      · simp only [stepPatternsAux, hs]
        apply ih (i + 1) (offsets2.set i o) (by omega) hlt
        intro m hm
        rw [nth_set_ne offsets2 i m o (by omega)]
        exact hsame m (by omega)

/-! ## Claim theorems: concrete evaluations -/

/-- Claim C1, counterexample.  Pattern "AAB" after matching "AA"
(offset 2) on mismatching byte "A" (65): the code moves the offset to 2,
while the rule stated in the claim (largest `offset2 < 2` with
`pattern[offset2 - 1] = b` and the prefix of length `offset2` equal to
the suffix of the matched run of that length) selects 1, as the third and
fourth conjuncts show.  Moreover in `multiFindUtil` pattern "AB" at
offset 1 on mismatching byte "C" (67) keeps stored offset 1 for the next
byte, while the claim prescribes 0 (no candidate exists). -/
theorem C1_counterexample :
    singlePatternStep [65, 65, 66] 2 65 = .inr 2 ∧
    65 ≠ nth [65, 65, 66] 2 ∧
    (1 < 2 ∧ nth [65, 65, 66] 0 = 65 ∧
      ∀ k, k < 1 → nth [65, 65, 66] k = nth [65, 65, 66] (k + (2 - 1))) ∧
    (∀ o2, o2 < 2 → (nth [65, 65, 66] (o2 - 1) = 65 ∧
      ∀ k, k < o2 → nth [65, 65, 66] k = nth [65, 65, 66] (k + (2 - o2))) →
      o2 ≤ 1) ∧
    (2 : Nat) ≠ 1 ∧
    processChunk [[65, 66]] [0] [65, 67] = .inr [1] ∧
    (∀ o2, o2 < 1 → ¬(0 < o2 ∧ nth [65, 66] (o2 - 1) = 67)) ∧
    (1 : Nat) ≠ 0 := by
  decide

/-- Claim C1, amended.  For every pattern and mismatching byte `b` at
offset greater than 0: in `singleFindUtil` the offset becomes the value
computed by the backtrack loop, which is the largest `o2` with
`o2 ≤ offset` (not strictly below it) such that the pattern byte at
`o2 - 1` equals `b` and the first `o2 - 1` pattern bytes re-align with
the tail of the previously matched run, or `0` when no such `o2` exists;
in `multiFindUtil` this value is computed into a local variable but the
stored per-pattern offset is left unchanged for the next byte. -/
theorem C1_amended (target : List Nat) (offset b : Nat)
    (hb : b ≠ nth target offset) (hpos : 0 < offset) :
    singlePatternStep target offset b =
      .inr (recoverLoop target b offset offset) ∧
    multiPatternStep target offset b = .inr offset ∧
    (recoverLoop target b offset offset = 0 ∨
      (0 < recoverLoop target b offset offset ∧
        recoverCond target b offset (recoverLoop target b offset offset))) ∧
    recoverLoop target b offset offset ≤ offset ∧
    ∀ o2, 0 < o2 → o2 ≤ offset → recoverCond target b offset o2 →
      o2 ≤ recoverLoop target b offset offset := by
  refine ⟨?_, ?_, recoverLoop_spec target b offset offset⟩
  · unfold singlePatternStep
    rw [if_neg hb]
  · unfold multiPatternStep
    rw [if_neg hb, if_neg (Nat.pos_iff_ne_zero.mp hpos)]

/-- Witness for C1 at pattern "AAB", offset 2, byte "A". -/
theorem C1_witness :
    singlePatternStep [65, 65, 66] 2 65 =
      .inr (recoverLoop [65, 65, 66] 65 2 2) ∧
    multiPatternStep [65, 65, 66] 2 65 = .inr 2 :=
  ⟨(C1_amended [65, 65, 66] 2 65 (by decide) (by decide)).1,
   (C1_amended [65, 65, 66] 2 65 (by decide) (by decide)).2.1⟩

/-- Claim C2, evaluation of the code at the failing input.  In
`multiFindUtil`, pattern "ABAB" fed the bytes "A","B","C" keeps stored
offset 2 although the longest prefix of "ABAB" that is a suffix of the
consumed bytes has length 0; `singleFindUtil` on the same bytes does
reset to 0, and fed "A","B","A","B" steps through offsets 1,2,3 and then
completes on the fourth byte. -/
theorem C2_code_evaluation :
    processChunk [[65, 66, 65, 66]] [0] [65, 66, 67] = .inr [2] ∧
    longestRun [65, 66, 65, 66] [65, 66, 67] = 0 ∧
    (2 : Nat) ≠ 0 ∧
    singleProcess [65, 66, 65, 66] 0 [65, 66, 67] = .inr 0 ∧
    singlePatternStep [65, 66, 65, 66] 0 65 = .inr 1 ∧
    singlePatternStep [65, 66, 65, 66] 1 66 = .inr 2 ∧
    singlePatternStep [65, 66, 65, 66] 2 65 = .inr 3 ∧
    singlePatternStep [65, 66, 65, 66] 3 66 = .inl () := by
  decide

/-- Claim C3, evaluation of the code at the failing input.  Target "AB",
stream chunk "A","C","B" observed after the deadline: `multiFindUtil`
with the one-element list returns index 0 (a match, although "AB" never
appears contiguously) while `singleFindUtil` returns false, so the two
functions are not equivalent. -/
theorem C3_code_evaluation :
    multiFindUtil [[65, 66]] 1 0 [([65, 67, 66], 5)] = .ok (some (some 0)) ∧
    singleFindUtil [65, 66] 1 0 [([65, 67, 66], 5)] = .ok (some false) :=
  ⟨rfl, rfl⟩

/-- Claim C4, counterexample.  Against targets ["OK", "ERROR"], the bytes
"G","O","K" alone already complete the match with index 0: the match is
reported at the first contiguous "OK", before the later "O","K","CR","LF"
bytes exist, contradicting the claim that the match is reported only at
the second occurrence. -/
theorem C4_counterexample :
    multiFindUtil [[79, 75], [69, 82, 82, 79, 82]] 10 0 [([71, 79, 75], 5)] =
      .ok (some (some 0)) :=
  rfl

/-- Claim C4, amended.  With targets ["OK", "ERROR"] and the stream
delivering "G","O","K" and later "O","K","CR","LF", the call returns
index 0; the match completes on the byte "K" of the first chunk (after
"G","O" no pattern has completed and the stored offsets are 1 and 0), so
only "G","O","K" are consumed. -/
theorem C4_amended :
    multiFindUtil [[79, 75], [69, 82, 82, 79, 82]] 10 0
      [([71, 79, 75], 5), ([79, 75, 13, 10], 6)] = .ok (some (some 0)) ∧
    processChunk [[79, 75], [69, 82, 82, 79, 82]] [0, 0] [71, 79] =
      .inr [1, 0] ∧
    processChunk [[79, 75], [69, 82, 82, 79, 82]] [0, 0] [71, 79, 75] =
      .inl 0 :=
  ⟨rfl, rfl, rfl⟩

/-- Claim C5.  When pattern `j` completes on the current byte and no
pattern with a smaller index completes on the same byte, the pattern
loop returns `.inl j` at once, and processing the byte list returns
`.inl j` irrespective of the remaining bytes (no further patterns are
checked for the byte, no further bytes are consumed); concretely, with
targets ["A", "AB"] and input "AB", index 0 is returned, the match of
"A" completing already on the first byte. -/
theorem C5_earliest_match :
    (∀ targets offsets b j rest, j < targets.length →
      completesAt targets offsets b j →
      (∀ j2, j2 < j → ¬completesAt targets offsets b j2) →
      stepPatterns targets offsets b = .inl j ∧
      processChunk targets offsets (b :: rest) = .inl j) ∧
    multiFindUtil [[65], [65, 66]] 10 0 [([65, 66], 5)] = .ok (some (some 0)) ∧
    processChunk [[65], [65, 66]] [0, 0] [65] = .inl 0 := by
  refine ⟨?_, rfl, rfl⟩
  intro targets offsets b j rest hj hcomp hno
  have h1 : stepPatterns targets offsets b = .inl j := by
    unfold stepPatterns
    exact stepPatternsAux_finds targets b offsets j hj hcomp hno
      targets.length 0 offsets (by omega) (Nat.zero_le j) (fun m _ => rfl)
  exact ⟨h1, by simp only [processChunk, h1]⟩

/-- Witness for C5 at targets ["A", "AB"], all-zero offsets, byte "A". -/
theorem C5_witness :
    stepPatterns [[65], [65, 66]] [0, 0] 65 = .inl 0 ∧
    processChunk [[65], [65, 66]] [0, 0] [65, 66] = .inl 0 :=
  C5_earliest_match.1 [[65], [65, 66]] [0, 0] 65 0 [66] (by decide)
    (by decide) (by decide)

/-- Claim C7, counterexample.  A pattern list containing the empty
pattern with timeout 0 is accepted: `multiFindUtil` does not fail, it
proceeds to the polling loop (the source guard checks only
`targets.length === 0` and `timeout_ms < 0`). -/
theorem C7_counterexample :
    multiFindUtil [[]] 0 0 [] = .ok none :=
  rfl

/-- Claim C7, amended.  `multiFindUtil` throws its invalid-argument
fault if and only if the pattern list is empty or the timeout is
negative (an empty pattern inside the list is not rejected); since the
equivalence holds for every iteration trace, the failure does not depend
on and does not consume the stream. -/
theorem C7_amended (targets : List (List Nat)) (timeout_ms : Int)
    (start_time : Nat) (iters : List (List Nat × Nat)) :
    multiFindUtil targets timeout_ms start_time iters = .error () ↔
      (targets = [] ∨ timeout_ms < 0) := by
  unfold multiFindUtil
  by_cases h : targets.length = 0 ∨ timeout_ms < 0
  · rw [if_pos h]
    constructor
    · intro _
      rcases h with h | h
      · exact Or.inl (List.length_eq_zero.mp h)
      · exact Or.inr h
    · intro _
      rfl
  · rw [if_neg h]
    constructor
    · intro hc
      exact Except.noConfusion hc
    · intro hc
      exfalso
      apply h
      rcases hc with hc | hc
      · exact Or.inl (by rw [hc]; rfl)
      · exact Or.inr hc

/-- Witness for C7 at the empty pattern list. -/
theorem C7_witness :
    multiFindUtil [] 5 0 [] = .error () ↔
      (([] : List (List Nat)) = [] ∨ (5 : Int) < 0) :=
  C7_amended [] 5 0 []

/-- Claim C10.  In `multiFindUtil`, a byte that mismatches a pattern at
positive stored offset leaves the stored offset unchanged, and the
stored offset changes only through a successful byte match (in which
case it is incremented); concretely, for pattern "AB" at offset 1 and
byte "C" the backtrack loop computes 0 but the stored offset stays 1. -/
theorem C10_frame :
    (∀ target offset b, b ≠ nth target offset → 0 < offset →
      multiPatternStep target offset b = .inr offset) ∧
    (∀ target offset b o, multiPatternStep target offset b = .inr o →
      o ≠ offset → b = nth target offset ∧ o = offset + 1) ∧
    recoverLoop [65, 66] 67 1 1 = 0 ∧
    multiPatternStep [65, 66] 1 67 = .inr 1 := by
  refine ⟨?_, ?_, by decide, by decide⟩
  · intro target offset b hb hpos
    unfold multiPatternStep
    rw [if_neg hb, if_neg (Nat.pos_iff_ne_zero.mp hpos)]
  · intro target offset b o hstep hne
    unfold multiPatternStep at hstep
    by_cases hb : b = nth target offset
    · rw [if_pos hb] at hstep
      by_cases hlen : offset + 1 = target.length
      · rw [if_pos hlen] at hstep
        exact absurd hstep (by simp)
      · rw [if_neg hlen] at hstep
        refine ⟨hb, ?_⟩
        simpa using hstep.symm
    · rw [if_neg hb] at hstep
      by_cases h0 : offset = 0
      · rw [if_pos h0] at hstep
        have : o = 0 := by simpa using hstep.symm
        exact absurd (this.trans h0.symm) hne
      · rw [if_neg h0] at hstep
        have : o = offset := by simpa using hstep.symm
        exact absurd this hne

/-- Witness for C10 at pattern "AB", offset 1, byte "C". -/
theorem C10_witness : multiPatternStep [65, 66] 1 67 = .inr 1 :=
  C10_frame.1 [65, 66] 1 67 (by decide) (by decide)

/-! ## parseNumber lemmas -/

theorem parseNumberRun_digits (end_time : Nat) :
    ∀ (ds : List (Nat × Nat)) (num : List Nat)
      (rest : List (Option Nat × Nat)),
      (∀ p ∈ ds, (48 ≤ p.1 ∧ p.1 ≤ 57) ∧ p.2 < end_time) →
      parseNumberRun end_time num
        (ds.map (fun p => (some p.1, p.2)) ++ rest) =
      parseNumberRun end_time (num ++ ds.map Prod.fst) rest := by
  intro ds
  induction ds with
  | nil =>
    intro num rest _
    simp
  | cons p ds ih =>
    intro num rest hall
    obtain ⟨⟨hd1, hd2⟩, ht⟩ := hall p (List.mem_cons_self p ds)
    have hcond : (p.1 = 45 ∧ num = []) ∨ (48 ≤ p.1 ∧ p.1 ≤ 57) :=
      Or.inr ⟨hd1, hd2⟩
    simp only [List.map_cons, List.cons_append, parseNumberRun]
    rw [if_pos hcond, if_pos ht]
    simp only [List.append_eq]
    rw [ih (num ++ [p.1]) rest (fun q hq => hall q (List.mem_cons_of_mem p hq))]
    simp

theorem parseNumberRun_term (end_time : Nat) (num : List Nat) (c tc : Nat)
    (rest : List (Option Nat × Nat))
    (h : ¬((c = 45 ∧ num = []) ∨ (48 ≤ c ∧ c ≤ 57))) :
    parseNumberRun end_time num ((some c, tc) :: rest) =
      if num ≠ [] ∧ num ≠ [45] then some (some (parseIntOf num), rest)
      else some (none, rest) := by
  simp only [parseNumberRun]
  rw [if_neg h]

theorem parseIntOf_head_ne (a : Nat) (l : List Nat) (h : a ≠ 45) :
    parseIntOf (a :: l) = (digitsVal (a :: l) : Int) := by
  unfold parseIntOf
  split
  · rename_i heq
    exact absurd (List.head_eq_of_cons_eq heq) h
  · rfl

theorem parseIntOf_neg (l : List Nat) :
    parseIntOf (45 :: l) = -(digitsVal l : Int) := by
  unfold parseIntOf
  split
  · rename_i heq
    rw [List.tail_eq_of_cons_eq heq]
  · rename_i hne
    exact absurd rfl (hne l)

/-- Claim C8.  `parseNumber` accumulates consecutive digit bytes into a
decimal value (first conjunct), accepts a leading minus byte only in the
very first position where it negates the value (second conjunct), stops
at the first terminating byte, which is consumed and discarded so that
the stream resumes after it (`rest` in both conclusions); fed
"1","2","3","a","b" it returns 123 with "b" the next unread byte (third
conjunct). -/
theorem C8_parseNumber :
    (∀ end_time (ds : List (Nat × Nat)) (c tc : Nat)
        (rest : List (Option Nat × Nat)),
      ds ≠ [] →
      (∀ p ∈ ds, (48 ≤ p.1 ∧ p.1 ≤ 57) ∧ p.2 < end_time) →
      ¬(48 ≤ c ∧ c ≤ 57) →
      parseNumberRun end_time []
          (ds.map (fun p => (some p.1, p.2)) ++ (some c, tc) :: rest) =
        some (some ((digitsVal (ds.map Prod.fst) : Int)), rest)) ∧
    (∀ end_time (ds : List (Nat × Nat)) (c tc t0 : Nat)
        (rest : List (Option Nat × Nat)),
      t0 < end_time → ds ≠ [] →
      (∀ p ∈ ds, (48 ≤ p.1 ∧ p.1 ≤ 57) ∧ p.2 < end_time) →
      ¬(48 ≤ c ∧ c ≤ 57) →
      parseNumberRun end_time []
          ((some 45, t0) ::
            (ds.map (fun p => (some p.1, p.2)) ++ (some c, tc) :: rest)) =
        some (some (-(digitsVal (ds.map Prod.fst) : Int)), rest)) ∧
    parseNumberRun 10 []
        [(some 49, 1), (some 50, 1), (some 51, 1), (some 97, 1),
          (some 98, 1)] =
      some (some 123, [(some 98, 1)]) := by
  refine ⟨?_, ?_, by decide⟩
  · intro end_time ds c tc rest hne hall hdig
    obtain ⟨q, ds2, rfl⟩ := List.exists_cons_of_ne_nil hne
    have hq := (hall q (List.mem_cons_self q ds2)).1
    have hq45 : q.1 ≠ 45 := by omega
    have hterm1 : ¬((c = 45 ∧ q.1 :: List.map Prod.fst ds2 = []) ∨
        (48 ≤ c ∧ c ≤ 57)) := by
      intro h
      rcases h with ⟨_, habs⟩ | h2
      · exact List.noConfusion habs
      · exact hdig h2
    have hne45 : q.1 :: List.map Prod.fst ds2 ≠ [45] := by
      intro he
      injection he with h1 _
      exact hq45 h1
    rw [parseNumberRun_digits end_time (q :: ds2) [] ((some c, tc) :: rest) hall]
    simp only [List.nil_append, List.map_cons]
    rw [parseNumberRun_term end_time (q.1 :: List.map Prod.fst ds2) c tc rest
      hterm1]
    rw [if_pos ⟨List.cons_ne_nil _ _, hne45⟩]
    rw [parseIntOf_head_ne q.1 (List.map Prod.fst ds2) hq45]
  · intro end_time ds c tc t0 rest ht0 hne hall hdig
    obtain ⟨q, ds2, rfl⟩ := List.exists_cons_of_ne_nil hne
    have hstep : parseNumberRun end_time []
        ((some 45, t0) ::
          ((q :: ds2).map (fun p => (some p.1, p.2)) ++ (some c, tc) :: rest)) =
        parseNumberRun end_time [45]
          ((q :: ds2).map (fun p => (some p.1, p.2)) ++ (some c, tc) :: rest) := by
      simp only [parseNumberRun]
      simp [ht0]
    have hterm2 : ¬((c = 45 ∧ 45 :: q.1 :: List.map Prod.fst ds2 = []) ∨
        (48 ≤ c ∧ c ≤ 57)) := by
      intro h
      rcases h with ⟨_, habs⟩ | h2
      · exact List.noConfusion habs
      · exact hdig h2
    have hne45b : 45 :: q.1 :: List.map Prod.fst ds2 ≠ [45] := by
      intro he
      injection he with _ h2
      exact List.noConfusion h2
    rw [hstep,
      parseNumberRun_digits end_time (q :: ds2) [45] ((some c, tc) :: rest) hall]
    simp only [List.map_cons, List.cons_append, List.nil_append,
      List.singleton_append]
    rw [parseNumberRun_term end_time (45 :: q.1 :: List.map Prod.fst ds2) c tc
      rest hterm2]
    rw [if_pos ⟨List.cons_ne_nil _ _, hne45b⟩]
    rw [parseIntOf_neg]

/-- Witness for C8: digits "1","2","3" then terminator "a" with "b"
unread. -/
theorem C8_witness :
    parseNumberRun 10 []
        [(some 49, 1), (some 50, 1), (some 51, 1), (some 97, 1),
          (some 98, 1)] =
      some (some ((digitsVal [49, 50, 51] : Int)), [(some 98, 1)]) :=
  C8_parseNumber.1 10 [(49, 1), (50, 1), (51, 1)] 97 1 [(some 98, 1)]
    (by decide) (by decide) (by decide)

/-- Claim C9.  `parseNumber` returns the `NaN` failure sentinel when a
terminating byte arrives while the accumulated text is empty (first
conjunct) or is exactly "-" (second conjunct), and when the deadline
passes while no terminator has been seen, for instance when no bytes
ever arrive (third conjunct); when a terminator arrives with a proper
number accumulated it returns the parsed value instead (fourth
conjunct); concretely the input "-","x" fails (fifth conjunct).  The
source reports both failure modes through the same `NaN` sentinel. -/
theorem C9_failure_modes :
    (∀ end_time (c tc : Nat) (rest : List (Option Nat × Nat)),
      c ≠ 45 → ¬(48 ≤ c ∧ c ≤ 57) →
      parseNumberRun end_time [] ((some c, tc) :: rest) = some (none, rest)) ∧
    (∀ end_time (c tc : Nat) (rest : List (Option Nat × Nat)),
      ¬(48 ≤ c ∧ c ≤ 57) →
      parseNumberRun end_time [45] ((some c, tc) :: rest) =
        some (none, rest)) ∧
    (∀ end_time (num : List Nat) (ts : List Nat) (t : Nat)
        (rest : List (Option Nat × Nat)),
      (∀ u ∈ ts, u < end_time) → ¬(t < end_time) →
      parseNumberRun end_time num
          (ts.map (fun u => ((none : Option Nat), u)) ++ (none, t) :: rest) =
        some (none, rest)) ∧
    (∀ end_time (num : List Nat) (c tc : Nat)
        (rest : List (Option Nat × Nat)),
      ¬((c = 45 ∧ num = []) ∨ (48 ≤ c ∧ c ≤ 57)) →
      num ≠ [] → num ≠ [45] →
      parseNumberRun end_time num ((some c, tc) :: rest) =
        some (some (parseIntOf num), rest)) ∧
    parseNumberRun 10 [] [(some 45, 1), (some 120, 1)] =
      some (none, []) := by
  refine ⟨?_, ?_, ?_, ?_, by decide⟩
  · intro end_time c tc rest h45 hdig
    rw [parseNumberRun_term end_time [] c tc rest ?h1]
    case h1 =>
      intro h
      rcases h with ⟨hc, _⟩ | h2
      · exact h45 hc
      · exact hdig h2
    rw [if_neg (by simp)]
  · intro end_time c tc rest hdig
    rw [parseNumberRun_term end_time [45] c tc rest ?h2]
    case h2 =>
      intro h
      rcases h with ⟨_, habs⟩ | h2
      · exact List.noConfusion habs
      · exact hdig h2
    rw [if_neg (by simp)]
  · intro end_time num ts
    induction ts with
    | nil =>
      intro t rest _ ht
      simp only [List.map_nil, List.nil_append, parseNumberRun]
      rw [if_neg ht]
    | cons u ts ih =>
      intro t rest hall ht
      simp only [List.map_cons, List.cons_append, parseNumberRun]
      rw [if_pos (hall u (List.mem_cons_self u ts))]
      exact ih t rest (fun v hv => hall v (List.mem_cons_of_mem u hv)) ht
  · intro end_time num c tc rest hterm hn1 hn2
    rw [parseNumberRun_term end_time num c tc rest hterm]
    rw [if_pos ⟨hn1, hn2⟩]

/-- Witness for C9: no bytes ever arrive and the deadline passes. -/
theorem C9_witness :
    parseNumberRun 10 [] [(none, 1), (none, 2), (none, 12)] =
      some (none, []) :=
  C9_failure_modes.2.2.1 10 [] [1, 2] 12 [] (by decide) (by decide)

/-! ## Liveness of the multi-pattern matcher -/

theorem multiPatternStep_inr_lt (target : List Nat) (s b s2 : Nat)
    (hlt : s < target.length)
    (hstep : multiPatternStep target s b = .inr s2) : s2 < target.length := by
  unfold multiPatternStep at hstep
  by_cases hb : b = nth target s
  · rw [if_pos hb] at hstep
    by_cases hlen : s + 1 = target.length
    · rw [if_pos hlen] at hstep
      exact Sum.noConfusion hstep
    · rw [if_neg hlen] at hstep
      have h2 : s + 1 = s2 := by simpa using hstep
      omega
  · rw [if_neg hb] at hstep
    by_cases h0 : s = 0
    · rw [if_pos h0] at hstep
      have h2 : 0 = s2 := by simpa using hstep
      omega
    · rw [if_neg h0] at hstep
      have h2 : s = s2 := by simpa using hstep
      omega

theorem drop_cons_nth (target : List Nat) :
    ∀ k b l, target.drop k = b :: l →
      b = nth target k ∧ target.drop (k + 1) = l ∧ k < target.length := by
  induction target with
  | nil =>
    intro k b l h
    rw [List.drop_nil] at h
    exact List.noConfusion h
  | cons a t ih =>
    intro k b l h
    cases k with
    | zero =>
      rw [List.drop_zero] at h
      injection h with h1 h2
      refine ⟨h1.symm, ?_, by simp⟩
      rw [List.drop_succ_cons, List.drop_zero]
      exact h2
    | succ k =>
      rw [List.drop_succ_cons] at h
      obtain ⟨hb, hd, hk⟩ := ih k b l h
      refine ⟨hb, ?_, by simpa using Nat.succ_lt_succ hk⟩
      rw [List.drop_succ_cons]
      exact hd

/-- Feeding a pattern suffix `target.drop k` to the stored-state machine
of `multiFindUtil` from any live state `s ≥ k` completes the pattern:
the stored offset never decreases, and every needed byte occurs in the
remaining suffix. -/
theorem multiFeed_completes (target : List Nat) :
    ∀ (l : List Nat) (k s : Nat), target.drop k = l → k ≤ s →
      s < target.length → multiFeed target s l = .inl () := by
  intro l
  induction l with
  | nil =>
    intro k s hd hks hs
    have hk := List.drop_eq_nil_iff.mp hd
    omega
  | cons b l ih =>
    intro k s hd hks hs
    obtain ⟨hb, hd2, hk⟩ := drop_cons_nth target k b l hd
    by_cases hbs : b = nth target s
    · by_cases hlen : s + 1 = target.length
      · have hstep : multiPatternStep target s b = .inl () := by
          unfold multiPatternStep
          rw [if_pos hbs, if_pos hlen]
        simp only [multiFeed, hstep]
      · have hstep : multiPatternStep target s b = .inr (s + 1) := by
          unfold multiPatternStep
          rw [if_pos hbs, if_neg hlen]
        simp only [multiFeed, hstep]
        exact ih (k + 1) (s + 1) hd2 (by omega) (by omega)
    · have hks2 : k < s := by
        rcases Nat.eq_or_lt_of_le hks with he | hlt
        · exfalso
          apply hbs
          rw [hb, he]
        · exact hlt
      have h0 : s ≠ 0 := by omega
      have hstep : multiPatternStep target s b = .inr s := by
        unfold multiPatternStep
        rw [if_neg hbs, if_neg h0]
      simp only [multiFeed, hstep]
      exact ih (k + 1) s hd2 (by omega) hs

theorem multiFeed_lt (target : List Nat) :
    ∀ (w : List Nat) (s s2 : Nat), multiFeed target s w = .inr s2 →
      s < target.length → s2 < target.length := by
  intro w
  induction w with
  | nil =>
    intro s s2 h hs
    simp only [multiFeed] at h
    injection h with he
    omega
  | cons b w ih =>
    intro s s2 h hs
    rcases hstep : multiPatternStep target s b with u | o
    · simp only [multiFeed, hstep] at h
      exact Sum.noConfusion h
    · simp only [multiFeed, hstep] at h
      exact ih o s2 h (multiPatternStep_inr_lt target s b o hs hstep)

theorem processChunk_append (targets : List (List Nat)) :
    ∀ (w1 w2 : List Nat) (offsets : List Nat),
      processChunk targets offsets (w1 ++ w2) =
        match processChunk targets offsets w1 with
        | .inl j => .inl j
        | .inr o => processChunk targets o w2 := by
  intro w1
  induction w1 with
  | nil =>
    intro w2 offsets
    simp [processChunk]
  | cons b w1 ih =>
    intro w2 offsets
    rcases hs : stepPatterns targets offsets b with j | o
    · simp only [List.cons_append, processChunk, hs]
    · simp only [List.cons_append, processChunk, hs]
      exact ih w2 o

theorem runChunks_join (targets : List (List Nat)) :
    ∀ (cs : List (List Nat)) (offsets : List Nat),
      runChunks targets offsets cs = processChunk targets offsets cs.flatten := by
  intro cs
  induction cs with
  | nil =>
    intro offsets
    simp [runChunks, List.flatten, processChunk]
  | cons c cs ih =>
    intro offsets
    rw [List.flatten_cons, processChunk_append]
    rcases hs : processChunk targets offsets c with j | o
    · simp only [runChunks, hs]
    · simp only [runChunks, hs]
      exact ih o

theorem stepPatternsAux_proj (targets : List (List Nat)) (b : Nat) :
    ∀ fuel i offsets2 offsets3,
      fuel = targets.length - i → i ≤ targets.length →
      targets.length ≤ offsets2.length →
      stepPatternsAux targets b fuel i offsets2 = .inr offsets3 →
      offsets3.length = offsets2.length ∧
      (∀ m, m < i → nth offsets3 m = nth offsets2 m) ∧
      (∀ m, i ≤ m → m < targets.length →
        multiPatternStep (patAt targets m) (nth offsets2 m) b =
          .inr (nth offsets3 m)) := by
  intro fuel
  induction fuel with
  | zero =>
    intro i offsets2 offsets3 hf hi hlen hstep
    simp only [stepPatternsAux] at hstep
    injection hstep with he
    subst he
    exact ⟨rfl, fun m _ => rfl, fun m hm1 hm2 => by omega⟩
  | succ fuel ih =>
    intro i offsets2 offsets3 hf hi hlen hstep
    have hilt : i < targets.length := by omega
    rcases hs : multiPatternStep (patAt targets i) (nth offsets2 i) b with u | o
    · simp only [stepPatternsAux, hs] at hstep
      exact Sum.noConfusion hstep
    · simp only [stepPatternsAux, hs] at hstep
      obtain ⟨hl, hlow, hrest⟩ := ih (i + 1) (offsets2.set i o) offsets3
        (by omega) (by omega) (by rw [List.length_set]; exact hlen) hstep
      have hio : i < offsets2.length := lt_of_lt_of_le hilt hlen
      refine ⟨by rw [hl, List.length_set], ?_, ?_⟩
      · intro m hm
        rw [hlow m (by omega), nth_set_ne offsets2 i m o (by omega)]
      · intro m hm1 hm2
        rcases Nat.eq_or_lt_of_le hm1 with he | hlt2
        · subst he
          have h3 : nth offsets3 i = o := by
            rw [hlow i (by omega), nth_set_self offsets2 i o hio]
          rw [h3]
          exact hs
        · have h4 := hrest m hlt2 hm2
          rwa [nth_set_ne offsets2 i m o (by omega)] at h4

theorem processChunk_proj (targets : List (List Nat)) :
    ∀ (w : List Nat) (offsets offsets3 : List Nat),
      targets.length ≤ offsets.length →
      processChunk targets offsets w = .inr offsets3 →
      offsets3.length = offsets.length ∧
      ∀ m, m < targets.length →
        multiFeed (patAt targets m) (nth offsets m) w =
          .inr (nth offsets3 m) := by
  intro w
  induction w with
  | nil =>
    intro offsets offsets3 hlen h
    simp only [processChunk] at h
    injection h with he
    subst he
    exact ⟨rfl, fun m _ => rfl⟩
  | cons b w ih =>
    intro offsets offsets3 hlen h
    rcases hs : stepPatterns targets offsets b with j | o
    · simp only [processChunk, hs] at h
      exact Sum.noConfusion h
    · simp only [processChunk, hs] at h
      unfold stepPatterns at hs
      obtain ⟨hl0, _, hstep0⟩ := stepPatternsAux_proj targets b targets.length 0
        offsets o (by omega) (Nat.zero_le _) hlen hs
      obtain ⟨hl, hfeed⟩ := ih o offsets3 (by rw [hl0]; exact hlen) h
      refine ⟨by rw [hl, hl0], ?_⟩
      intro m hm
      have hstepm := hstep0 m (Nat.zero_le m) hm
      simp only [multiFeed, hstepm]
      exact hfeed m hm

theorem multiRun_of_runChunks (targets : List (List Nat)) (end_time : Nat) :
    ∀ (pre : List (List Nat × Nat)) (offsets : List Nat) (lastc : List Nat)
      (t : Nat) (rest : List (List Nat × Nat)) (j : Nat),
      (∀ p ∈ pre, p.2 < end_time) →
      runChunks targets offsets (pre.map Prod.fst ++ [lastc]) = .inl j →
      multiRun targets end_time offsets (pre ++ (lastc, t) :: rest) =
        some (some j) := by
  intro pre
  induction pre with
  | nil =>
    intro offsets lastc t rest j _ hrun
    simp only [List.map_nil, List.nil_append] at hrun
    rcases hs : processChunk targets offsets lastc with j2 | o
    · simp only [runChunks, hs] at hrun
      injection hrun with he
      subst he
      simp only [List.nil_append, multiRun, hs]
    · simp only [runChunks, hs] at hrun
      exact Sum.noConfusion hrun
  | cons p pre ih =>
    intro offsets lastc t rest j hall hrun
    obtain ⟨c, tc⟩ := p
    simp only [List.map_cons, List.cons_append] at hrun
    rcases hs : processChunk targets offsets c with j2 | o
    · simp only [runChunks, hs] at hrun
      injection hrun with he
      subst he
      simp only [List.cons_append, multiRun, hs]
    · simp only [runChunks, hs] at hrun
      have htc : tc < end_time := hall (c, tc) (List.mem_cons_self _ _)
      simp only [List.cons_append, multiRun, hs]
      rw [if_pos htc]
      exact ih o lastc t rest j
        (fun q hq => hall q (List.mem_cons_of_mem _ hq)) hrun

/-- Processing any byte list containing the pattern of index `jP`
contiguously, from the all-zero initial offsets, returns a match. -/
theorem processChunk_completes (targets : List (List Nat)) (jP : Nat)
    (hj : jP < targets.length) (hnempty : patAt targets jP ≠ [])
    (u v : List Nat) :
    ∃ j, processChunk targets (List.replicate targets.length 0)
        (u ++ patAt targets jP ++ v) = .inl j := by
  have hlen0 : targets.length ≤ (List.replicate targets.length 0).length := by
    rw [List.length_replicate]
  have hn : 0 < (patAt targets jP).length := List.length_pos.mpr hnempty
  rcases h1 : processChunk targets (List.replicate targets.length 0) u
    with j | o1
  · refine ⟨j, ?_⟩
    rw [List.append_assoc, processChunk_append, h1]
  · obtain ⟨hl1, hfeed1⟩ := processChunk_proj targets u
      (List.replicate targets.length 0) o1 hlen0 h1
    have hfj := hfeed1 jP hj
    rw [nth_replicate] at hfj
    have hs1 : nth o1 jP < (patAt targets jP).length :=
      multiFeed_lt (patAt targets jP) u 0 (nth o1 jP) hfj hn
    rcases h2 : processChunk targets o1 (patAt targets jP) with j | o2
    · refine ⟨j, ?_⟩
      rw [List.append_assoc, processChunk_append, h1]
      show processChunk targets o1 (patAt targets jP ++ v) = .inl j
      rw [processChunk_append, h2]
    · exfalso
      obtain ⟨_, hfeed2⟩ := processChunk_proj targets (patAt targets jP) o1 o2
        (by rw [hl1]; exact hlen0) h2
      have hcomp := multiFeed_completes (patAt targets jP) (patAt targets jP)
        0 (nth o1 jP) (by simp) (Nat.zero_le _) hs1
      rw [hfeed2 jP hj] at hcomp
      exact Sum.noConfusion hcomp

/-! ## The single-pattern matcher maintains the longest-border invariant -/

theorem borderOK_zero (target w : List Nat) : borderOK target w 0 :=
  ⟨Nat.zero_le _, Nat.zero_le _, fun k hk => absurd hk (by omega)⟩

theorem borderOK_longestRun (target w : List Nat) :
    borderOK target w (longestRun target w) :=
  Nat.findGreatest_spec (Nat.zero_le _) (borderOK_zero target w)

theorem longestRun_nil (target : List Nat) : longestRun target [] = 0 := by
  unfold longestRun
  rw [Nat.findGreatest_eq_zero_iff]
  intro n hn _ hb
  have h2 := hb.2.1
  simp only [List.length_nil] at h2
  omega

theorem borderOK_append_succ (target w : List Nat) (b : Nat) (l : Nat) :
    borderOK target (w ++ [b]) (l + 1) ↔
      (borderOK target w l ∧ nth target l = b ∧ l + 1 ≤ target.length) := by
  unfold borderOK
  simp only [List.length_append, List.length_cons, List.length_nil]
  constructor
  · intro ⟨h1, h2, h3⟩
    have hlw : l ≤ w.length := by omega
    refine ⟨⟨by omega, hlw, ?_⟩, ?_, h1⟩
    · intro k hk
      have h4 := h3 k (by omega)
      have harith : w.length + (0 + 1) - (l + 1) + k = w.length - l + k := by
        omega
      rw [harith] at h4
      rwa [nth_append_left w [b] (w.length - l + k) (by omega)] at h4
    · have h4 := h3 l (by omega)
      have harith : w.length + (0 + 1) - (l + 1) + l = w.length := by omega
      rw [harith] at h4
      have h5 : nth (w ++ [b]) w.length = b := by
        have := nth_append_right w [b] 0
        simpa using this
      rwa [h5] at h4
  · intro ⟨⟨ha1, ha2, ha3⟩, hb, hl1⟩
    refine ⟨hl1, by omega, ?_⟩
    intro k hk
    by_cases hkl : k < l
    · have harith : w.length + (0 + 1) - (l + 1) + k = w.length - l + k := by
        omega
      rw [harith, nth_append_left w [b] (w.length - l + k) (by omega)]
      exact ha3 k hkl
    · have hkeq : k = l := by omega
      subst hkeq
      have harith : w.length + (0 + 1) - (k + 1) + k = w.length := by omega
      rw [harith]
      have h5 : nth (w ++ [b]) w.length = b := by
        have := nth_append_right w [b] 0
        simpa using this
      rw [h5]
      exact hb

theorem longestRun_snoc_match (target w : List Nat) (b : Nat) (s : Nat)
    (hs : s = longestRun target w) (hlt : s < target.length)
    (hb : b = nth target s) :
    longestRun target (w ++ [b]) = s + 1 := by
  have hbs : borderOK target w s := hs ▸ borderOK_longestRun target w
  have hsf : Nat.findGreatest (borderOK target w) target.length = s := hs.symm
  unfold longestRun
  rw [Nat.findGreatest_eq_iff]
  refine ⟨by omega, fun _ => ?_, ?_⟩
  · rw [borderOK_append_succ]
    exact ⟨hbs, hb.symm, by omega⟩
  · intro m hm1 hm2 hbm
    cases m with
    | zero => omega
    | succ l =>
      rw [borderOK_append_succ] at hbm
      have hflt : Nat.findGreatest (borderOK target w) target.length < l := by
        rw [hsf]
        omega
      exact Nat.findGreatest_is_greatest hflt hbm.1.1 hbm.1

theorem longestRun_snoc_mismatch (target w : List Nat) (b : Nat) (s : Nat)
    (hs : s = longestRun target w) (hlt : s < target.length)
    (hb : b ≠ nth target s) :
    longestRun target (w ++ [b]) = recoverLoop target b s s := by
  have hbs : borderOK target w s := hs ▸ borderOK_longestRun target w
  have hsf : Nat.findGreatest (borderOK target w) target.length = s := hs.symm
  obtain ⟨hror, hrle, hrmax⟩ := recoverLoop_spec target b s s
  have hbridge : ∀ o2, 0 < o2 → o2 ≤ s →
      (recoverCond target b s o2 ↔ borderOK target (w ++ [b]) o2) := by
    intro o2 h1 h2
    obtain ⟨p, rfl⟩ : ∃ p, o2 = p + 1 := ⟨o2 - 1, by omega⟩
    rw [recoverCond_succ, borderOK_append_succ]
    have hsw : s ≤ w.length := hbs.2.1
    constructor
    · intro ⟨hc1, hc2⟩
      refine ⟨⟨by omega, by omega, ?_⟩, hc1, by omega⟩
      intro k hk
      rw [hc2 k hk]
      have h4 := hbs.2.2 (k + (s - p)) (by omega)
      rw [h4]
      congr 1
      omega
    · intro ⟨⟨hw1, hw2, hw3⟩, hbp, hn1⟩
      refine ⟨hbp, ?_⟩
      intro k hk
      rw [hw3 k hk]
      have h4 := hbs.2.2 (k + (s - p)) (by omega)
      rw [h4]
      congr 1
      omega
  unfold longestRun
  rw [Nat.findGreatest_eq_iff]
  refine ⟨by omega, ?_, ?_⟩
  · intro hrne
    rcases hror with h0 | ⟨hpos, hcond⟩
    · exact absurd h0 hrne
    · exact (hbridge _ hpos hrle).mp hcond
  · intro m hm1 hm2 hbm
    rcases Nat.lt_or_ge s m with hms | hms
    · obtain ⟨l, rfl⟩ : ∃ l, m = l + 1 := ⟨m - 1, by omega⟩
      rw [borderOK_append_succ] at hbm
      by_cases hls : l = s
      · rw [hls] at hbm
        exact hb hbm.2.1.symm
      · have hflt : Nat.findGreatest (borderOK target w) target.length < l := by
          rw [hsf]
          omega
        exact Nat.findGreatest_is_greatest hflt hbm.1.1 hbm.1
    · have hpos : 0 < m := by omega
      have hcond := (hbridge m hpos hms).mpr hbm
      have h5 := hrmax m hpos hms hcond
      omega

theorem singlePatternStep_inv (target w : List Nat) (b : Nat) (s s2 : Nat)
    (hs : s = longestRun target w) (hlt : s < target.length)
    (hstep : singlePatternStep target s b = .inr s2) :
    s2 = longestRun target (w ++ [b]) ∧ s2 < target.length := by
  unfold singlePatternStep at hstep
  by_cases hb : b = nth target s
  · rw [if_pos hb] at hstep
    by_cases hlen : s + 1 = target.length
    · rw [if_pos hlen] at hstep
      exact Sum.noConfusion hstep
    · rw [if_neg hlen] at hstep
      have h2 : s + 1 = s2 := by simpa using hstep
      rw [longestRun_snoc_match target w b s hs hlt hb]
      constructor
      · omega
      · omega
  · rw [if_neg hb] at hstep
    have h2 : recoverLoop target b s s = s2 := by simpa using hstep
    have hr := longestRun_snoc_mismatch target w b s hs hlt hb
    have hrle := (recoverLoop_spec target b s s).2.1
    constructor
    · exact h2 ▸ hr.symm
    · omega

theorem singleProcess_inv (target : List Nat) :
    ∀ (w2 w : List Nat) (s s2 : Nat),
      s = longestRun target w → s < target.length →
      singleProcess target s w2 = .inr s2 →
      s2 = longestRun target (w ++ w2) ∧ s2 < target.length := by
  intro w2
  induction w2 with
  | nil =>
    intro w s s2 hs hlt h
    simp only [singleProcess] at h
    injection h with he
    subst he
    rw [List.append_nil]
    exact ⟨hs, hlt⟩
  | cons b w2 ih =>
    intro w s s2 hs hlt h
    rcases hstep : singlePatternStep target s b with u | o
    · simp only [singleProcess, hstep] at h
      exact Sum.noConfusion h
    · simp only [singleProcess, hstep] at h
      obtain ⟨ho, holt⟩ := singlePatternStep_inv target w b s o hs hlt hstep
      have h3 := ih (w ++ [b]) o s2 ho holt h
      rwa [List.append_assoc, List.singleton_append] at h3

theorem longestRun_full (target u : List Nat) (_h : target ≠ []) :
    longestRun target (u ++ target) = target.length := by
  have hb : borderOK target (u ++ target) target.length := by
    refine ⟨le_rfl, by simp, ?_⟩
    intro k hk
    have harith : (u ++ target).length - target.length + k = u.length + k := by
      simp only [List.length_append]
      omega
    rw [harith, nth_append_right]
  unfold longestRun
  exact le_antisymm (Nat.findGreatest_le _) (Nat.le_findGreatest le_rfl hb)

theorem singleProcess_finds (target u : List Nat) (h : target ≠ []) :
    singleProcess target 0 (u ++ target) = .inl () := by
  rcases hs : singleProcess target 0 (u ++ target) with x | s2
  · cases x
    rfl
  · exfalso
    have h0 : (0 : Nat) = longestRun target [] := (longestRun_nil target).symm
    have hpos : 0 < target.length := List.length_pos.mpr h
    obtain ⟨he, hlt2⟩ := singleProcess_inv target (u ++ target) [] 0 s2 h0
      hpos hs
    rw [List.nil_append, longestRun_full target u h] at he
    omega

theorem singleProcess_append (target : List Nat) :
    ∀ (w1 w2 : List Nat) (s : Nat),
      singleProcess target s (w1 ++ w2) =
        match singleProcess target s w1 with
        | .inl _ => .inl ()
        | .inr o => singleProcess target o w2 := by
  intro w1
  induction w1 with
  | nil =>
    intro w2 s
    simp [singleProcess]
  | cons b w1 ih =>
    intro w2 s
    rcases hs : singlePatternStep target s b with u | o
    · cases u
      simp only [List.cons_append, singleProcess, hs]
    · simp only [List.cons_append, singleProcess, hs]
      exact ih w2 o

theorem singleRun_of_chunks (target : List Nat) (end_time : Nat) :
    ∀ (pre : List (List Nat × Nat)) (s : Nat) (lastc : List Nat) (t : Nat)
      (rest : List (List Nat × Nat)),
      (∀ p ∈ pre, p.2 < end_time) →
      singleProcess target s (pre.map Prod.fst ++ [lastc]).flatten = .inl () →
      singleRun target end_time s (pre ++ (lastc, t) :: rest) = some true := by
  intro pre
  induction pre with
  | nil =>
    intro s lastc t rest _ hproc
    simp only [List.map_nil, List.nil_append] at hproc
    rw [List.flatten_cons, List.flatten_nil, List.append_nil] at hproc
    simp only [List.nil_append, singleRun, hproc]
  | cons p pre ih =>
    intro s lastc t rest hall hproc
    obtain ⟨c, tc⟩ := p
    rw [List.map_cons, List.cons_append, List.flatten_cons,
      singleProcess_append] at hproc
    rcases hs : singleProcess target s c with u | o
    · cases u
      simp only [List.cons_append, singleRun, hs]
    · rw [hs] at hproc
      have htc : tc < end_time := hall (c, tc) (List.mem_cons_self _ _)
      simp only [List.cons_append, singleRun, hs]
      rw [if_pos htc]
      exact ih o lastc t rest
        (fun q hq => hall q (List.mem_cons_of_mem _ hq)) hproc

/-- Claim C6.  If a non-empty pattern appears contiguously within the
bytes delivered while every intermediate deadline check still passes,
then `multiFindUtil` (with that pattern among its targets) returns a
match index rather than -1 (first conjunct), and `singleFindUtil` (with
that pattern as its target) returns true rather than false (second
conjunct); in both cases the return happens while processing those
bytes, before the deadline can be reported. -/
theorem C6_liveness :
    (∀ (targets : List (List Nat)) (jP : Nat) (u v : List Nat)
        (iters1 : List (List Nat × Nat)) (lastc : List Nat) (tl : Nat)
        (rest : List (List Nat × Nat)) (end_time : Nat),
      jP < targets.length → patAt targets jP ≠ [] →
      (∀ p ∈ iters1, p.2 < end_time) →
      (iters1.map Prod.fst ++ [lastc]).flatten =
        u ++ patAt targets jP ++ v →
      ∃ j, multiRun targets end_time (List.replicate targets.length 0)
        (iters1 ++ (lastc, tl) :: rest) = some (some j)) ∧
    (∀ (target : List Nat) (u v : List Nat)
        (iters1 : List (List Nat × Nat)) (lastc : List Nat) (tl : Nat)
        (rest : List (List Nat × Nat)) (end_time : Nat),
      target ≠ [] →
      (∀ p ∈ iters1, p.2 < end_time) →
      (iters1.map Prod.fst ++ [lastc]).flatten = u ++ target ++ v →
      singleRun target end_time 0 (iters1 ++ (lastc, tl) :: rest) =
        some true) := by
  constructor
  · intro targets jP u v iters1 lastc tl rest end_time hj hne hall hjoin
    obtain ⟨j, hcomp⟩ := processChunk_completes targets jP hj hne u v
    refine ⟨j, ?_⟩
    apply multiRun_of_runChunks targets end_time iters1 _ lastc tl rest j hall
    rw [runChunks_join, hjoin]
    exact hcomp
  · intro target u v iters1 lastc tl rest end_time hne hall hjoin
    apply singleRun_of_chunks target end_time iters1 0 lastc tl rest hall
    rw [hjoin, singleProcess_append, singleProcess_finds target u hne]

/-- Witness for C6: pattern "AB" delivered in one chunk before the
deadline. -/
theorem C6_witness :
    (∃ j, multiRun [[65, 66]] 5 (List.replicate 1 0) [([65, 66], 0)] =
      some (some j)) ∧
    singleRun [65, 66] 5 0 [([65, 66], 0)] = some true :=
  ⟨C6_liveness.1 [[65, 66]] 0 [] [] [] [65, 66] 0 [] 5 (by decide)
      (by decide) (fun p hp => absurd hp (List.not_mem_nil p)) (by decide),
   C6_liveness.2 [65, 66] [] [] [] [65, 66] 0 [] 5 (by decide)
      (fun p hp => absurd hp (List.not_mem_nil p)) (by decide)⟩

end emakefun
